import Mathlib

/-
Shallow embedding of the FIM (file-integrity monitoring + backup rotation)
program `FIM.py`, together with proofs settling the specification claims.

Conventions of the embedding:
  * Python strings are `List Char`; file byte contents are `List Nat`.
  * `hashlib.sha512` / `hashlib.sha256` digests are modelled symbolically by
    the inductive `Digest` (the two constructors never collide, matching the
    fact that the two real digests have different output lengths; the claims
    concern which digest function each code path calls, not SHA internals).
  * Python dicts are insertion-ordered association lists; `dictInsert`
    reproduces dict assignment (overwrite in place, append when fresh).
  * Uncaught Python exceptions are `Except.error`.
-/

namespace FIM

abbrev Field := List Char

/-- Symbolic model of the two hashlib digests used by the program. -/
inductive Digest where
  | sha512 (data : List Nat)
  | sha256 (data : List Nat)
deriving DecidableEq, Repr

/-- Output width in bits of each digest, per the hashlib functions used. -/
def digestBits : Digest → Nat
  | .sha512 _ => 512
  | .sha256 _ => 256

/-- Embeds calculate_file_hash (FIM.py lines 450-461): sha512 of the file's
full byte content. -/
def calculate_file_hash (data : List Nat) : Digest := Digest.sha512 data

/-- Embeds calculate_file_checksum (FIM.py lines 248-259): sha256 of the
file's full byte content. -/
def calculate_file_checksum (data : List Nat) : Digest := Digest.sha256 data

/-- The file categories returned by check_file_type; Python's None return is
modelled by Option.none. -/
inductive FileType where
  | excel
  | image
  | word
  | pdf
  | pptx
deriving DecidableEq, Repr

/-- Python str.endswith for a single candidate suffix. -/
def endswith (s p : List Char) : Bool := List.isSuffixOf p s

/-- Embeds check_file_type (FIM.py lines 397-419): dispatch on the literal
(lower-case) suffixes tested by the chain of str.endswith calls. -/
def check_file_type (filename : List Char) : Option FileType :=
  if endswith filename ('.' :: 'x' :: 'l' :: 's' :: 'x' :: []) then some .excel
  else if endswith filename ('.' :: 'j' :: 'p' :: 'g' :: []) ||
          endswith filename ('.' :: 'j' :: 'p' :: 'e' :: 'g' :: []) ||
          endswith filename ('.' :: 'p' :: 'n' :: 'g' :: []) ||
          endswith filename ('.' :: 'g' :: 'i' :: 'f' :: []) then some .image
  else if endswith filename ('.' :: 'd' :: 'o' :: 'c' :: 'x' :: []) then some .word
  else if endswith filename ('.' :: 'p' :: 'd' :: 'f' :: []) then some .pdf
  else if endswith filename ('.' :: 'p' :: 'p' :: 't' :: 'x' :: []) then some .pptx
  else none

/-! Ledger file format: the program writes one `path|hash|event_id` line per
record and parses lines by `line.strip().split("|")`, keeping a line only
when it yields at least 3 fields (taking the first three). -/

/-- Splits a character list at every occurrence of the separator, like
Python str.split on a one-character separator (empty chunks kept). -/
def splitOnChar (sep : Char) : List Char → List (List Char)
  | [] => [[]]
  | c :: cs =>
    if c = sep then [] :: splitOnChar sep cs
    else
      match splitOnChar sep cs with
      | [] => [[c]]
      | t :: ts => (c :: t) :: ts

/-- The whitespace characters stripped by Python str.strip (ASCII part). -/
def pySpace (c : Char) : Bool :=
  c = ' ' || c = '\t' || c = '\n' || c = '\r' || c = '\x0b' || c = '\x0c'

/-- Python str.strip(): drop whitespace from both ends. -/
def pstrip (s : List Char) : List Char :=
  ((s.dropWhile pySpace).reverse.dropWhile pySpace).reverse

/-- One ledger line as parsed by the loaders (FIM.py lines 128-135, 514-521
and the identical per-handler copies): strip, split on the pipe, keep the
first three fields when at least three are present, otherwise skip. -/
def parseLine (line : List Char) : Option (Field × Field × Field) :=
  match splitOnChar '|' (pstrip line) with
  | p :: h :: e :: _ => some (p, h, e)
  | _ => none

/-- Python dict assignment d[k] = v on an insertion-ordered association
list: overwrite in place when the key exists, append otherwise. -/
def dictInsert {α : Type} (m : List (Field × α)) (k : Field) (v : α) :
    List (Field × α) :=
  if (m.lookup k).isSome then
    m.map (fun kv => if kv.1 = k then (k, v) else kv)
  else m ++ [(k, v)]

/-- One serialized ledger line: path|hash|event_id. -/
def mkLine (p h e : Field) : List Char := p ++ ('|' :: (h ++ ('|' :: e)))

/-- Embeds the save loops (FIM.py lines 152-154, 497-500 and copies): one
newline-terminated `path|hash|event_id` line per record, in record order. -/
def saveLedger (recs : List (Field × Field × Field)) : List Char :=
  recs.foldr (fun r acc => mkLine r.1 r.2.1 r.2.2 ++ '\n' :: acc) []

/-- Embeds the load loops: iterate the file's lines, parse each, and insert
parsed records into a dict, later lines overwriting earlier ones. (Reading
the byte stream line by line is modelled by splitting on the newline; the
trailing empty chunk parses to none, matching Python's line iteration which
yields no trailing empty line.) -/
def loadLedger (s : List Char) : List (Field × Field × Field) :=
  (splitOnChar '\n' s).foldl
    (fun m line =>
      match parseLine line with
      | some (p, h, e) => dictInsert m p (h, e)
      | none => m)
    []

/-! Backup retention. -/

/-- Embeds delete_old_backups (FIM.py lines 59-74) on an abstract directory
listing: each entry is a backup path paired with its creation time
(os.path.getctime). The code sorts ascending by creation time and, when
more than 2 backups exist, deletes only backups[0], the oldest. The result
is the set of entries left on disk after one invocation. -/
def delete_old_backups (entries : List (Field × Nat)) : List (Field × Nat) :=
  let backups := List.insertionSort (fun a b => a.2 ≤ b.2) entries
  if backups.length > 2 then backups.tail else backups

/-! The per-category change handlers (C10).  process_file_changes and its
image/excel/pdf/text copies all load baseline.txt with a loop whose line
variables are named path, file_hash, event_id - the last of which REBINDS
the function's event_id parameter, so after a non-empty load the parameter
value is lost and the id of the last parsed line is stored instead. -/

/-- Hexadecimal digit characters as produced by hexdigest(). -/
def hexChar (n : Nat) : Char :=
  if n < 10 then Char.ofNat ('0'.toNat + n) else Char.ofNat ('a'.toNat + n - 10)

/-- Two hex digits for one byte. -/
def hexByte (n : Nat) : List Char := [hexChar (n / 16 % 16), hexChar (n % 16)]

/-- Serialization of a digest to the hex string stored in the ledger,
modelling hexdigest(): injective, free of pipes, newlines and whitespace.
The leading tag chars keep the two digest widths from ever colliding,
mirroring the different output lengths of real sha512/sha256 hex digests. -/
def digestHex : Digest → List Char
  | .sha512 d => '5' :: '1' :: '2' :: d.foldr (fun b acc => hexByte b ++ acc) []
  | .sha256 d => '2' :: '5' :: '6' :: d.foldr (fun b acc => hexByte b ++ acc) []

/-- The load loop of process_file_changes (FIM.py lines 126-135; the
image/excel/pdf/text handlers repeat it verbatim): builds the baseline
dict and, as a side effect of the loop variable naming, rebinds event_id
to the third field of every parsed line.  Returns the dict together with
the final value of the event_id variable. -/
def loadShadow (lines : List (List Char)) (eid0 : Field) :
    List (Field × Field × Field) × Field :=
  lines.foldl
    (fun st line =>
      match parseLine line with
      | some (p, h, e) => (dictInsert st.1 p (h, e), e)
      | none => st)
    ([], eid0)

/-- Outcome of one handler invocation: the updated in-memory dict, the
full content unconditionally rewritten to baseline.txt, and the numeric
code of the log line emitted. -/
structure HandlerResult where
  data : List (Field × Field × Field)
  written : List Char
  code : Nat
deriving DecidableEq, Repr

/-- Embeds process_file_changes (FIM.py lines 114-157) on its observable
state: the current ledger content, the filename and event_id arguments,
and the file's byte content.  The image/excel/pdf/text handlers differ
only in log wording (and the excel one in digest width, see C7). -/
def process_file_changes (ledger : List Char) (filename : Field) (event_id : Field)
    (content : List Nat) : HandlerResult :=
  let le := loadShadow (splitOnChar '\n' ledger) event_id
  let baseline_data := le.1
  let eid := le.2
  let current_hash := digestHex (calculate_file_hash content)
  let code :=
    match baseline_data.lookup filename with
    | none => 101
    | some hv => if current_hash ≠ hv.1 then 103 else 100
  let data := dictInsert baseline_data filename (current_hash, eid)
  { data := data, written := saveLedger data, code := code }

/-! The monitoring loop (FIM.py lines 502-582).  One iteration of the
while-True body is modelled as a function of
  * dirs: the concatenation, over all target folders, of the per-directory
    file lists yielded by os.walk (after the excluded-dirs filtering), each
    file carrying its observable status for this cycle;
  * live: the set of paths for which os.path.exists returns true when the
    per-directory delete check runs;
  * the in-memory baseline map file_info_dict (insertion-ordered dict) and
    a counter supplying fresh uuid4 event ids.
A file whose probe open() raises PermissionError is `locked` (caught:
skipped); a file that has vanished when opened or hashed is `gone`
(FileNotFoundError, caught by nothing in monitor_files: the exception
propagates out of the loop, modelled as Except.error). -/

abbrev Path := List Char

/-- Observable status of one walked file during the cycle. -/
inductive FStat where
  | avail (content : List Nat)
  | locked
  | gone
deriving DecidableEq, Repr

/-- One entry of file_info_dict: hash, event_id and the stored path field
(set to the key everywhere a record is created). -/
structure BaselineRecord where
  hash : Digest
  event_id : Nat
  path : Path
deriving DecidableEq, Repr

/-- The change events logged by the loop: codes 101 (new), 103/process_file
(modified), 104 (renamed), 102 (deleted). -/
inductive Ev where
  | new (p : Path)
  | modified (p : Path)
  | renamed (oldPath : Path) (newPath : Path)
  | deleted (p : Path)
deriving DecidableEq, Repr

/-- Running state of one cycle: the baseline map, the fresh-id counter,
the events logged so far (in order), and how many times baseline.txt has
been rewritten by handlers invoked via process_file. -/
structure MState where
  map : List (Path × BaselineRecord)
  ctr : Nat
  events : List Ev
  writes : Nat
deriving DecidableEq, Repr

/-- Which categories reach a handler that rewrites baseline.txt when
process_file dispatches on check_file_type: excel/image/word/pdf do; the
pptx and unknown (None) categories fall to the generic else branch which
only logs; the text branch is unreachable (check_file_type never returns
a txt tag).  The word handler can skip its write in race cases, so this
count is an upper bound - only the upper bound is used in the theorems. -/
def ledgerWriting : Option FileType → Bool
  | some .excel => true
  | some .image => true
  | some .word => true
  | some .pdf => true
  | some .pptx => false
  | none => false

/-- Per-file body of the discovery loop (FIM.py lines 533-574). -/
def stepFile (st : MState) (p : Path) (fs : FStat) : Except Unit MState :=
  match fs with
  | .locked => Except.ok st
  | .gone => Except.error ()
  | .avail c =>
    match st.map.lookup p with
    | none =>
      Except.ok { map := dictInsert st.map p ⟨calculate_file_hash c, st.ctr, p⟩,
                  ctr := st.ctr + 1,
                  events := st.events ++ [Ev.new p],
                  writes := st.writes }
    | some r =>
      if calculate_file_hash c ≠ r.hash then
        Except.ok { map := dictInsert st.map p ⟨calculate_file_hash c, st.ctr, r.path⟩,
                    ctr := st.ctr + 1,
                    events := st.events ++ [Ev.modified p],
                    writes := st.writes + (if ledgerWriting (check_file_type p) then 1 else 0) }
      else if p ≠ r.path then
        match st.map.lookup r.path with
        | none => Except.error ()
        | some r2 =>
          Except.ok { map := dictInsert (st.map.filter (fun kv => kv.1 ≠ r.path)) p
                        { r2 with path := p },
                      ctr := st.ctr,
                      events := st.events ++ [Ev.renamed r.path p],
                      writes := st.writes }
      else Except.ok st

/-- The per-directory delete check (FIM.py lines 577-582): iterate a
snapshot of the keys, and for every key for which os.path.exists is
false, log 102 and delete the record. -/
def deletePass (live : List Path) (st : MState) : MState :=
  { st with
    map := st.map.filter (fun kv => decide (kv.1 ∈ live)),
    events := st.events ++
      (((st.map.map Prod.fst).filter (fun k => decide (k ∉ live))).map Ev.deleted) }

/-- The per-file loop over one directory's file list, propagating any
uncaught exception. -/
def runFiles (st : MState) : List (Path × FStat) → Except Unit MState
  | [] => Except.ok st
  | f :: rest =>
    match stepFile st f.1 f.2 with
    | Except.error e => Except.error e
    | Except.ok st1 => runFiles st1 rest

/-- One directory of the walk: process its files in order, then run the
delete check (the delete check sits INSIDE the os.walk loop). -/
def walkDir (live : List Path) (st : MState) (files : List (Path × FStat)) :
    Except Unit MState :=
  match runFiles st files with
  | Except.error e => Except.error e
  | Except.ok st1 => Except.ok (deletePass live st1)

/-- The walk over all directories of all target folders, in order. -/
def runDirs (live : List Path) : List (List (Path × FStat)) → MState → Except Unit MState
  | [], st => Except.ok st
  | d :: rest, st =>
    match walkDir live st d with
    | Except.error e => Except.error e
    | Except.ok st1 => runDirs live rest st1

/-- One full iteration of the while-True body of monitor_files: walk every
directory of every target folder in order, starting from the loaded
baseline map and an empty event log. -/
def monitor_files_cycle (dirs : List (List (Path × FStat))) (live : List Path)
    (base : List (Path × BaselineRecord)) (ctr0 : Nat) : Except Unit MState :=
  runDirs live dirs { map := base, ctr := ctr0, events := [], writes := 0 }

/-- Which digest function each per-category change handler applies to the
file's byte content: process_excel_changes calls calculate_file_checksum
(FIM.py line 227) while the generic/image/word/pdf/text handlers call
calculate_file_hash (lines 138, 184, 289, 333, 376). -/
inductive Handler where
  | generic
  | image
  | excel
  | word
  | pdf
  | text
deriving DecidableEq, Repr

/-- The digest a handler computes and stores for a file's content. -/
def handlerDigest : Handler → List Nat → Digest
  | .excel, d => calculate_file_checksum d
  | _, d => calculate_file_hash d

/-! Association-list lemmas for the Python-dict model. -/

theorem lookup_mem {α : Type} {m : List (Field × α)} {k : Field} {v : α}
    (h : m.lookup k = some v) : (k, v) ∈ m := by
  induction m with
  | nil => simp [List.lookup] at h
  | cons kv rest ih =>
    obtain ⟨k1, v1⟩ := kv
    rw [List.lookup_cons] at h
    cases hbeq : (k == k1) with
    | true =>
      rw [hbeq] at h
      have hk : k = k1 := beq_iff_eq.mp hbeq
      simp only [Option.some.injEq] at h
      subst hk; subst h
      exact List.mem_cons_self _ _
    | false =>
      rw [hbeq] at h
      exact List.mem_cons_of_mem _ (ih h)

theorem mem_keys_of_lookup {α : Type} {m : List (Field × α)} {k : Field} {v : α}
    (h : m.lookup k = some v) : k ∈ m.map Prod.fst :=
  List.mem_map.mpr ⟨(k, v), lookup_mem h, rfl⟩

theorem lookup_eq_none_of_not_mem_keys {α : Type} {m : List (Field × α)} {k : Field}
    (h : k ∉ m.map Prod.fst) : m.lookup k = none := by
  induction m with
  | nil => rfl
  | cons kv rest ih =>
    obtain ⟨k1, v1⟩ := kv
    rw [List.lookup_cons]
    simp only [List.map_cons, List.mem_cons] at h
    push_neg at h
    have hne : (k == k1) = false := beq_eq_false_iff_ne.mpr h.1
    rw [hne]
    exact ih h.2

theorem lookup_map_overwrite_ne {α : Type} {m : List (Field × α)} {k q : Field} {v : α}
    (h : q ≠ k) :
    (m.map (fun kv => if kv.1 = k then (k, v) else kv)).lookup q = m.lookup q := by
  induction m with
  | nil => rfl
  | cons kv rest ih =>
    obtain ⟨k1, v1⟩ := kv
    by_cases hk : k1 = k
    · have hq1 : (q == k1) = false := beq_eq_false_iff_ne.mpr (fun he => h (he.trans hk))
      have hqk : (q == k) = false := beq_eq_false_iff_ne.mpr h
      simp [List.lookup_cons, hk, hq1, hqk, ih]
    · cases hbeq : (q == k1) <;> simp [List.lookup_cons, hk, hbeq, ih]

theorem lookup_append_single_ne {α : Type} {m : List (Field × α)} {k q : Field} {v : α}
    (h : q ≠ k) : (m ++ [(k, v)]).lookup q = m.lookup q := by
  induction m with
  | nil =>
    have hq : (q == k) = false := beq_eq_false_iff_ne.mpr h
    simp [List.lookup_cons, List.lookup, hq]
  | cons kv rest ih =>
    obtain ⟨k1, v1⟩ := kv
    rw [List.cons_append, List.lookup_cons, List.lookup_cons]
    cases hbeq : (q == k1) <;> simp [hbeq, ih]

theorem lookup_map_overwrite_self {α : Type} {m : List (Field × α)} {k : Field} {v : α}
    (hs : (m.lookup k).isSome) :
    (m.map (fun kv => if kv.1 = k then (k, v) else kv)).lookup k = some v := by
  induction m with
  | nil => simp [List.lookup] at hs
  | cons kv rest ih =>
    obtain ⟨k1, v1⟩ := kv
    by_cases hk : k1 = k
    · simp [List.lookup_cons, hk]
    · have hbeq : (k == k1) = false := beq_eq_false_iff_ne.mpr (fun he => hk he.symm)
      rw [List.lookup_cons, hbeq] at hs
      simp only [List.map_cons, if_neg hk, List.lookup_cons, hbeq]
      exact ih hs

theorem lookup_append_single_self {α : Type} {m : List (Field × α)} {k : Field} {v : α}
    (h : m.lookup k = none) : (m ++ [(k, v)]).lookup k = some v := by
  induction m with
  | nil => simp [List.lookup_cons, List.lookup]
  | cons kv rest ih =>
    obtain ⟨k1, v1⟩ := kv
    rw [List.lookup_cons] at h
    cases hbeq : (k == k1) with
    | true => rw [hbeq] at h; simp at h
    | false =>
      rw [hbeq] at h
      rw [List.cons_append]
      simp only [List.lookup_cons, hbeq]
      exact ih h

theorem lookup_dictInsert_self {α : Type} {m : List (Field × α)} {k : Field} {v : α} :
    (dictInsert m k v).lookup k = some v := by
  rw [dictInsert]
  by_cases hs : (m.lookup k).isSome
  · rw [if_pos hs]; exact lookup_map_overwrite_self hs
  · rw [if_neg hs]
    refine lookup_append_single_self ?_
    cases hl : m.lookup k
    · rfl
    · rw [hl] at hs; simp at hs

theorem lookup_dictInsert_ne {α : Type} {m : List (Field × α)} {k q : Field} {v : α}
    (h : q ≠ k) : (dictInsert m k v).lookup q = m.lookup q := by
  rw [dictInsert]
  by_cases hs : (m.lookup k).isSome
  · rw [if_pos hs]; exact lookup_map_overwrite_ne h
  · rw [if_neg hs]; exact lookup_append_single_ne h

theorem mem_dictInsert {α : Type} {m : List (Field × α)} {k : Field} {v : α} {kv : Field × α}
    (h : kv ∈ dictInsert m k v) : kv ∈ m ∨ kv = (k, v) := by
  rw [dictInsert] at h
  by_cases hs : (m.lookup k).isSome
  · rw [if_pos hs] at h
    obtain ⟨x, hx, hfx⟩ := List.mem_map.mp h
    by_cases hk : x.1 = k
    · right; rw [if_pos hk] at hfx; exact hfx.symm
    · left; rw [if_neg hk] at hfx; exact hfx ▸ hx
  · rw [if_neg hs] at h
    rcases List.mem_append.mp h with hm | hm
    · exact Or.inl hm
    · exact Or.inr (List.mem_singleton.mp hm)

theorem dictInsert_of_lookup_none {α : Type} {m : List (Field × α)} {k : Field} {v : α}
    (h : m.lookup k = none) : dictInsert m k v = m ++ [(k, v)] := by
  rw [dictInsert, if_neg (by rw [h]; simp)]

/-! Claim C1: retention.  The claim asserts that one invocation of
delete_old_backups deletes every entry beyond the newest keep_count = 2,
so that 5 archives are reduced to the 2 newest.  The code deletes at most
ONE backup per invocation (backups[0] after the ascending ctime sort). -/

instance : IsTotal (Field × Nat) (fun a b => a.2 ≤ b.2) :=
  ⟨fun a b => Nat.le_total a.2 b.2⟩

instance : IsTrans (Field × Nat) (fun a b => a.2 ≤ b.2) :=
  ⟨fun _ _ _ h1 h2 => Nat.le_trans h1 h2⟩

/-- Five archives with distinct creation times 1..5. -/
def c1entries : List (Field × Nat) :=
  [(['a'], 5), (['b'], 1), (['c'], 4), (['d'], 2), (['e'], 3)]

/-- Claim C1 counterexample: with keep_count = 2 and five archives with
distinct creation times, one invocation of delete_old_backups leaves FOUR
archives on disk (only the single oldest, ctime 1, is deleted), not the
two newest required by the claim. -/
theorem delete_old_backups_five_archives_leave_four :
    delete_old_backups c1entries = [(['d'], 2), (['e'], 3), (['c'], 4), (['a'], 5)] ∧
    (delete_old_backups c1entries).length = 4 := ⟨rfl, rfl⟩

/-- Claim C1 (amended): one invocation of delete_old_backups deletes only the
single oldest archive, and only when more than keep_count = 2 archives
exist; the remaining listing is the input minus one entry of minimal
creation time.  (Reducing 5 archives to the 2 newest therefore takes three
invocations, one per backup cycle.) -/
theorem delete_old_backups_prunes_single_oldest (entries : List (Field × Nat))
    (h : entries.length > 2) :
    ∃ old, old ∈ entries ∧ (∀ e ∈ entries, old.2 ≤ e.2) ∧
      entries.Perm (old :: delete_old_backups entries) ∧
      (delete_old_backups entries).length = entries.length - 1 := by
  have hperm := List.perm_insertionSort (fun (a b : Field × Nat) => a.2 ≤ b.2) entries
  have hsorted := List.sorted_insertionSort (fun (a b : Field × Nat) => a.2 ≤ b.2) entries
  have hlen := hperm.length_eq
  cases hc : List.insertionSort (fun (a b : Field × Nat) => a.2 ≤ b.2) entries with
  | nil => rw [hc] at hlen; simp at hlen; omega
  | cons a t =>
    rw [hc] at hperm hsorted hlen
    simp only [List.length_cons] at hlen
    have hDel : delete_old_backups entries = t := by
      show (if (List.insertionSort (fun (a b : Field × Nat) => a.2 ≤ b.2) entries).length > 2
            then (List.insertionSort (fun (a b : Field × Nat) => a.2 ≤ b.2) entries).tail
            else List.insertionSort (fun (a b : Field × Nat) => a.2 ≤ b.2) entries) = t
      rw [hc, if_pos]
      · rfl
      · simp only [List.length_cons]
        omega
    refine ⟨a, ?_, ?_, ?_, ?_⟩
    · exact hperm.subset (List.mem_cons_self a t)
    · intro e he
      have he' : e ∈ a :: t := hperm.symm.subset he
      rcases List.mem_cons.mp he' with rfl | ht
      · exact Nat.le_refl _
      · exact List.rel_of_sorted_cons hsorted e ht
    · rw [hDel]; exact hperm.symm
    · rw [hDel]; omega

/-- Concrete instantiation of the amended C1 theorem on the five-archive
listing. -/
theorem delete_old_backups_prunes_single_oldest_witness :
    ∃ old, old ∈ c1entries ∧ (∀ e ∈ c1entries, old.2 ≤ e.2) ∧
      c1entries.Perm (old :: delete_old_backups c1entries) ∧
      (delete_old_backups c1entries).length = c1entries.length - 1 :=
  delete_old_backups_prunes_single_oldest c1entries (by decide)

/-! Claim C7: digest width per handler. -/

/-- Claim C7 counterexample: the Excel change handler stores the 256-bit
sha256 digest of the content (calculate_file_checksum), which is never
equal to the 512-bit digest the claim requires. -/
theorem excel_handler_not_sha512 :
    handlerDigest Handler.excel [0] ≠ calculate_file_hash [0] ∧
    digestBits (handlerDigest Handler.excel [0]) = 256 := by
  constructor
  · intro hcon
    simp [handlerDigest, calculate_file_checksum, calculate_file_hash] at hcon
  · rfl

/-- Claim C7 (amended): every change handler except the Excel one stores
the 512-bit sha512 digest of the file's full byte content; the Excel
handler alone stores the 256-bit sha256 digest. -/
theorem handler_digest_widths (h : Handler) (d : List Nat) (hne : h ≠ Handler.excel) :
    handlerDigest h d = calculate_file_hash d ∧
    digestBits (handlerDigest h d) = 512 ∧
    digestBits (handlerDigest Handler.excel d) = 256 := by
  cases h
  · exact ⟨rfl, rfl, rfl⟩
  · exact ⟨rfl, rfl, rfl⟩
  · exact absurd rfl hne
  · exact ⟨rfl, rfl, rfl⟩
  · exact ⟨rfl, rfl, rfl⟩
  · exact ⟨rfl, rfl, rfl⟩

/-- Concrete instantiation of the amended C7 theorem for the Word handler. -/
theorem handler_digest_widths_witness :
    handlerDigest Handler.word [3] = calculate_file_hash [3] ∧
    digestBits (handlerDigest Handler.word [3]) = 512 ∧
    digestBits (handlerDigest Handler.excel [3]) = 256 :=
  handler_digest_widths Handler.word [3] (by decide)

/-! Claim C8: the file classifier. -/

theorem endswith_iff {s p : List Char} : endswith s p = true ↔ p <:+ s := by
  rw [endswith, List.isSuffixOf, List.isPrefixOf_iff_prefix, List.reverse_prefix]

theorem endswith_append_self (p s : List Char) : endswith (p ++ s) s = true :=
  endswith_iff.mpr (List.suffix_append p s)

theorem endswith_false_of_getLast_ne {s p : List Char} {c d : Char}
    (hp : p.getLast? = some c) (hs : s.getLast? = some d) (hne : c ≠ d) :
    endswith s p = false := by
  cases he : endswith s p with
  | false => rfl
  | true =>
    exfalso
    obtain ⟨t, ht⟩ := endswith_iff.mp he
    have hpn : p ≠ [] := by intro h0; rw [h0] at hp; simp at hp
    have hlast : s.getLast? = p.getLast? := by
      rw [← ht]; exact List.getLast?_append_of_ne_nil t hpn
    rw [hp, hs] at hlast
    exact hne (Option.some.inj hlast).symm

theorem endswith_eq_of_take5 {p q : List Char} (h : p.reverse.take 5 = q.reverse.take 5)
    (s : List Char) (hlen : s.length ≤ 5) : endswith p s = endswith q s := by
  have key : ∀ x : List Char,
      (endswith x s = true) ↔ s.reverse = (x.reverse.take 5).take s.length := by
    intro x
    rw [endswith_iff, ← List.reverse_prefix, List.prefix_iff_eq_take, List.length_reverse,
        List.take_take, min_eq_left hlen]
  rw [Bool.eq_iff_iff, key p, key q, h]

/-- The classification is a pure function of the path's last five
characters (every tested pattern has length at most 5). -/
theorem check_file_type_of_take5 {p q : List Char}
    (h : p.reverse.take 5 = q.reverse.take 5) :
    check_file_type p = check_file_type q := by
  have e1 := endswith_eq_of_take5 h ('.' :: 'x' :: 'l' :: 's' :: 'x' :: []) (by decide)
  have e2 := endswith_eq_of_take5 h ('.' :: 'j' :: 'p' :: 'g' :: []) (by decide)
  have e3 := endswith_eq_of_take5 h ('.' :: 'j' :: 'p' :: 'e' :: 'g' :: []) (by decide)
  have e4 := endswith_eq_of_take5 h ('.' :: 'p' :: 'n' :: 'g' :: []) (by decide)
  have e5 := endswith_eq_of_take5 h ('.' :: 'g' :: 'i' :: 'f' :: []) (by decide)
  have e6 := endswith_eq_of_take5 h ('.' :: 'd' :: 'o' :: 'c' :: 'x' :: []) (by decide)
  have e7 := endswith_eq_of_take5 h ('.' :: 'p' :: 'd' :: 'f' :: []) (by decide)
  have e8 := endswith_eq_of_take5 h ('.' :: 'p' :: 'p' :: 't' :: 'x' :: []) (by decide)
  rw [check_file_type, check_file_type, e1, e2, e3, e4, e5, e6, e7, e8]

/-- Claim C8 counterexample: classification is NOT case-insensitive; the
path a.xlsx is classified excel while a.XLSX (the same path with its
suffix upper-cased) is unrecognized (None), and unrecognized suffixes map
to None, not to a distinct other tag. -/
theorem check_file_type_uppercase_unrecognized :
    check_file_type ('a' :: '.' :: 'x' :: 'l' :: 's' :: 'x' :: []) = some FileType.excel ∧
    check_file_type ('a' :: '.' :: 'X' :: 'L' :: 'S' :: 'X' :: []) = none := ⟨rfl, rfl⟩

/-- Claim C8 (amended): check_file_type is a pure function of the path's
suffix (its last five characters) but is case-SENSITIVE: appending the
recognized lower-case suffix .xlsx always yields the excel category,
while appending its upper-cased variant .XLSX always yields None (the
value that drives the generic fall-through branch of process_file). -/
theorem check_file_type_suffix_case_sensitive :
    (∀ p q : List Char, p.reverse.take 5 = q.reverse.take 5 →
        check_file_type p = check_file_type q) ∧
    (∀ p : List Char,
        check_file_type (p ++ ('.' :: 'x' :: 'l' :: 's' :: 'x' :: [])) = some FileType.excel) ∧
    (∀ p : List Char,
        check_file_type (p ++ ('.' :: 'X' :: 'L' :: 'S' :: 'X' :: [])) = none) := by
  refine ⟨fun p q h => check_file_type_of_take5 h, fun p => ?_, fun p => ?_⟩
  · simp [check_file_type, endswith_append_self]
  · have hlast : (p ++ ('.' :: 'X' :: 'L' :: 'S' :: 'X' :: [])).getLast? = some 'X' := by
      rw [List.getLast?_append_of_ne_nil p (by decide)]; rfl
    have f1 : endswith (p ++ ('.' :: 'X' :: 'L' :: 'S' :: 'X' :: []))
        ('.' :: 'x' :: 'l' :: 's' :: 'x' :: []) = false :=
      endswith_false_of_getLast_ne rfl hlast (by decide)
    have f2 : endswith (p ++ ('.' :: 'X' :: 'L' :: 'S' :: 'X' :: []))
        ('.' :: 'j' :: 'p' :: 'g' :: []) = false :=
      endswith_false_of_getLast_ne rfl hlast (by decide)
    have f3 : endswith (p ++ ('.' :: 'X' :: 'L' :: 'S' :: 'X' :: []))
        ('.' :: 'j' :: 'p' :: 'e' :: 'g' :: []) = false :=
      endswith_false_of_getLast_ne rfl hlast (by decide)
    have f4 : endswith (p ++ ('.' :: 'X' :: 'L' :: 'S' :: 'X' :: []))
        ('.' :: 'p' :: 'n' :: 'g' :: []) = false :=
      endswith_false_of_getLast_ne rfl hlast (by decide)
    have f5 : endswith (p ++ ('.' :: 'X' :: 'L' :: 'S' :: 'X' :: []))
        ('.' :: 'g' :: 'i' :: 'f' :: []) = false :=
      endswith_false_of_getLast_ne rfl hlast (by decide)
    have f6 : endswith (p ++ ('.' :: 'X' :: 'L' :: 'S' :: 'X' :: []))
        ('.' :: 'd' :: 'o' :: 'c' :: 'x' :: []) = false :=
      endswith_false_of_getLast_ne rfl hlast (by decide)
    have f7 : endswith (p ++ ('.' :: 'X' :: 'L' :: 'S' :: 'X' :: []))
        ('.' :: 'p' :: 'd' :: 'f' :: []) = false :=
      endswith_false_of_getLast_ne rfl hlast (by decide)
    have f8 : endswith (p ++ ('.' :: 'X' :: 'L' :: 'S' :: 'X' :: []))
        ('.' :: 'p' :: 'p' :: 't' :: 'x' :: []) = false :=
      endswith_false_of_getLast_ne rfl hlast (by decide)
    simp [check_file_type, f1, f2, f3, f4, f5, f6, f7, f8]

/-! Ledger parsing lemmas (claims C5, C6, C10). -/

theorem splitOnChar_not_mem {sep : Char} {a : List Char} (h : sep ∉ a) :
    splitOnChar sep a = [a] := by
  induction a with
  | nil => rfl
  | cons c cs ih =>
    simp only [List.mem_cons] at h
    push_neg at h
    rw [splitOnChar, if_neg (fun he => h.1 he.symm), ih h.2]

theorem splitOnChar_append {sep : Char} {a : List Char} (rest : List Char) (h : sep ∉ a) :
    splitOnChar sep (a ++ sep :: rest) = a :: splitOnChar sep rest := by
  induction a with
  | nil => simp [splitOnChar]
  | cons c cs ih =>
    simp only [List.mem_cons] at h
    push_neg at h
    rw [List.cons_append, splitOnChar, if_neg (fun he => h.1 he.symm), ih h.2]

/-- True when the first character (if any) is not strippable whitespace. -/
def headOk : List Char → Bool
  | [] => true
  | c :: _ => !pySpace c

/-- True when the last character (if any) is not strippable whitespace. -/
def lastOk (s : List Char) : Bool := headOk s.reverse

theorem dropWhile_of_headOk {s : List Char} (h : headOk s = true) :
    s.dropWhile pySpace = s := by
  cases s with
  | nil => rfl
  | cons c cs =>
    have hps : pySpace c = false := by
      rw [headOk] at h; simpa using h
    simp [List.dropWhile_cons, hps]

theorem pstrip_of_ok {s : List Char} (h1 : headOk s = true) (h2 : lastOk s = true) :
    pstrip s = s := by
  have h2' : headOk s.reverse = true := h2
  rw [pstrip, dropWhile_of_headOk h1, dropWhile_of_headOk h2', List.reverse_reverse]

theorem headOk_append_pipe {a : List Char} (h : headOk a = true) (rest : List Char) :
    headOk (a ++ '|' :: rest) = true := by
  cases a with
  | nil => rfl
  | cons c cs => exact h

theorem lastOk_append {a b : List Char} (h : lastOk b = true) (hb : b ≠ []) :
    lastOk (a ++ b) = true := by
  rw [lastOk, List.reverse_append]
  cases hb2 : b.reverse with
  | nil => exact absurd (by simpa using congrArg List.reverse hb2) hb
  | cons c cs =>
    rw [lastOk, hb2] at h
    exact h

theorem lastOk_cons_pipe {b : List Char} (h2 : lastOk b = true) (a : List Char) :
    lastOk (a ++ '|' :: b) = true := by
  cases hb : b with
  | nil => exact lastOk_append (by rfl) (by simp)
  | cons c cs =>
    have heq : a ++ '|' :: (c :: cs) = (a ++ ['|']) ++ (c :: cs) := by simp
    rw [heq]
    exact lastOk_append (hb ▸ h2) (by simp)

theorem parseLine_mkLine {p hs e : List Char}
    (hp : '|' ∉ p) (hh : '|' ∉ hs) (he : '|' ∉ e)
    (h1 : headOk p = true) (h2 : lastOk e = true) :
    parseLine (mkLine p hs e) = some (p, hs, e) := by
  have hhead : headOk (mkLine p hs e) = true := headOk_append_pipe h1 _
  have hlast : lastOk (mkLine p hs e) = true := lastOk_cons_pipe (lastOk_cons_pipe h2 hs) p
  rw [parseLine, pstrip_of_ok hhead hlast, mkLine, splitOnChar_append _ hp,
      splitOnChar_append _ hh, splitOnChar_not_mem he]

/-- Claim C6 (amended): the loaders never fail.  A line that splits into
MORE than 3 fields is accepted, contributing a record built from its
first three fields; a line with fewer than 3 fields is skipped silently
(no warning, no error - no CorruptLedger condition exists in the code). -/
theorem ledger_line_parsing (a b c d : List Char)
    (ha : '|' ∉ a) (hb : '|' ∉ b) (hc : '|' ∉ c) (hd : '|' ∉ d)
    (hha : headOk a = true) (hld : lastOk d = true) (hlb : lastOk b = true) :
    parseLine (a ++ ('|' :: (b ++ ('|' :: (c ++ ('|' :: d)))))) = some (a, b, c) ∧
    parseLine (a ++ ('|' :: b)) = none := by
  constructor
  · have hhead : headOk (a ++ ('|' :: (b ++ ('|' :: (c ++ ('|' :: d)))))) = true :=
      headOk_append_pipe hha _
    have hlast : lastOk (a ++ ('|' :: (b ++ ('|' :: (c ++ ('|' :: d)))))) = true :=
      lastOk_cons_pipe (lastOk_cons_pipe (lastOk_cons_pipe hld c) b) a
    rw [parseLine, pstrip_of_ok hhead hlast, splitOnChar_append _ ha,
        splitOnChar_append _ hb, splitOnChar_append _ hc, splitOnChar_not_mem hd]
  · have hhead : headOk (a ++ ('|' :: b)) = true := headOk_append_pipe hha _
    have hlast : lastOk (a ++ ('|' :: b)) = true := lastOk_cons_pipe hlb a
    rw [parseLine, pstrip_of_ok hhead hlast, splitOnChar_append _ ha,
        splitOnChar_not_mem hb]

/-- Concrete instantiation of the amended C6 theorem. -/
theorem ledger_line_parsing_witness :
    parseLine (['p'] ++ ('|' :: (['h'] ++ ('|' :: (['e'] ++ ('|' :: ['x'])))))) = some (['p'], ['h'], ['e']) ∧
    parseLine (['p'] ++ ('|' :: ['h'])) = none :=
  ledger_line_parsing ['p'] ['h'] ['e'] ['x']
    (by decide) (by decide) (by decide) (by decide) (by decide) (by decide) (by decide)

/-- Claim C6 counterexample: the claim requires the load to FAIL with
CorruptLedger when a line does not split into exactly 3 fields; on a
4-field line the load succeeds, returning a record built from the first
three fields, and a 2-field line is skipped with no warning. -/
theorem load_accepts_four_field_line :
    loadLedger ('p' :: '|' :: 'h' :: '|' :: 'e' :: '|' :: 'x' :: '\n' :: []) =
      [(['p'], ['h'], ['e'])] ∧
    loadLedger ('p' :: '|' :: 'h' :: '\n' :: []) = [] := ⟨rfl, rfl⟩

/-! Claim C5: ledger round-trip. -/

/-- A field that survives the line format: free of the delimiter and of
newlines. -/
def goodField (s : Field) : Prop := '|' ∉ s ∧ '\n' ∉ s

instance (s : Field) : Decidable (goodField s) :=
  inferInstanceAs (Decidable ('|' ∉ s ∧ '\n' ∉ s))

/-- A record whose save line parses back to itself: fields are
delimiter/newline free, the path does not start with strippable
whitespace and the event id does not end with it. -/
def goodRecord (r : Field × Field × Field) : Prop :=
  goodField r.1 ∧ goodField r.2.1 ∧ goodField r.2.2 ∧
    headOk r.1 = true ∧ lastOk r.2.2 = true

instance (r : Field × Field × Field) : Decidable (goodRecord r) :=
  inferInstanceAs (Decidable (goodField r.1 ∧ goodField r.2.1 ∧ goodField r.2.2 ∧
    headOk r.1 = true ∧ lastOk r.2.2 = true))

theorem newline_not_mem_mkLine {r : Field × Field × Field} (h : goodRecord r) :
    '\n' ∉ mkLine r.1 r.2.1 r.2.2 := by
  obtain ⟨⟨_, h1⟩, ⟨_, h2⟩, ⟨_, h3⟩, _, _⟩ := h
  intro hmem
  rw [mkLine] at hmem
  rcases List.mem_append.mp hmem with hm | hm
  · exact h1 hm
  · rcases List.mem_cons.mp hm with hm2 | hm2
    · exact absurd hm2 (by decide)
    · rcases List.mem_append.mp hm2 with hm3 | hm3
      · exact h2 hm3
      · rcases List.mem_cons.mp hm3 with hm4 | hm4
        · exact absurd hm4 (by decide)
        · exact h3 hm4

theorem saveLedger_cons (r : Field × Field × Field) (rest : List (Field × Field × Field)) :
    saveLedger (r :: rest) = mkLine r.1 r.2.1 r.2.2 ++ '\n' :: saveLedger rest := rfl

theorem split_saveLedger {R : List (Field × Field × Field)} (h : ∀ r ∈ R, goodRecord r) :
    splitOnChar '\n' (saveLedger R) = R.map (fun r => mkLine r.1 r.2.1 r.2.2) ++ [[]] := by
  induction R with
  | nil => rfl
  | cons r rest ih =>
    rw [saveLedger_cons,
        splitOnChar_append _ (newline_not_mem_mkLine (h r (List.mem_cons_self r rest))),
        ih (fun x hx => h x (List.mem_cons_of_mem r hx))]
    simp

theorem load_fold_append (R : List (Field × Field × Field)) :
    ∀ acc : List (Field × Field × Field), (∀ r ∈ R, goodRecord r) →
    (∀ r ∈ R, acc.lookup r.1 = none) → (R.map Prod.fst).Nodup →
    (R.map (fun (r : Field × Field × Field) => mkLine r.1 r.2.1 r.2.2) ++ [[]]).foldl
      (fun m line =>
        match parseLine line with
        | some (p, h, e) => dictInsert m p (h, e)
        | none => m) acc = acc ++ R := by
  induction R with
  | nil =>
    intro acc _ _ _
    simp only [List.map_nil, List.nil_append, List.foldl_cons, List.foldl_nil,
      List.append_nil]
    rw [show parseLine [] = none from rfl]
  | cons r rest ih =>
    intro acc hgood hdisj hnodup
    have hr := hgood r (List.mem_cons_self r rest)
    have hstep : (match parseLine (mkLine r.1 r.2.1 r.2.2) with
        | some (p, h, e) => dictInsert acc p (h, e)
        | none => acc) = acc ++ [r] := by
      rw [parseLine_mkLine hr.1.1 hr.2.1.1 hr.2.2.1.1 hr.2.2.2.1 hr.2.2.2.2]
      exact dictInsert_of_lookup_none (hdisj r (List.mem_cons_self r rest))
    rw [List.map_cons] at hnodup
    have hnodup' := (List.nodup_cons.mp hnodup).2
    have hfresh := (List.nodup_cons.mp hnodup).1
    have hdisj' : ∀ x ∈ rest, (acc ++ [r]).lookup x.1 = none := by
      intro x hx
      have hne : x.1 ≠ r.1 := by
        intro he
        exact hfresh (he ▸ List.mem_map.mpr ⟨x, hx, rfl⟩)
      rw [lookup_append_single_ne hne]
      exact hdisj x (List.mem_cons_of_mem r hx)
    simp only [List.map_cons, List.cons_append, List.foldl_cons, hstep]
    rw [ih (acc ++ [r]) (fun x hx => hgood x (List.mem_cons_of_mem r hx)) hdisj' hnodup']
    simp

/-- Claim C5 (amended): save-then-load reproduces a record set exactly
(even preserving record order) PROVIDED no field contains the delimiter
or a newline, paths do not begin with strippable whitespace and event ids
do not end with it.  The claim as stated, over every record set, fails:
the format has no escaping, so a pipe in a path shifts every field. -/
theorem ledger_roundtrip (R : List (Field × Field × Field))
    (hgood : ∀ r ∈ R, goodRecord r)
    (hnodup : (R.map Prod.fst).Nodup) :
    loadLedger (saveLedger R) = R := by
  rw [loadLedger, split_saveLedger hgood]
  have h := load_fold_append R [] hgood (fun r _ => rfl) hnodup
  simpa using h

/-- Concrete instantiation of the amended C5 theorem on a two-record set. -/
theorem ledger_roundtrip_witness :
    loadLedger (saveLedger [(['a'], ['h'], ['e']), (['b'], ['g'], ['f'])]) =
      [(['a'], ['h'], ['e']), (['b'], ['g'], ['f'])] :=
  ledger_roundtrip [(['a'], ['h'], ['e']), (['b'], ['g'], ['f'])] (by decide) (by decide)

/-- Claim C5 counterexample: a record set whose path contains the pipe
delimiter does not round-trip; the unescaped pipe shifts the fields on
reload, so the claim's universal round-trip statement is false. -/
theorem ledger_roundtrip_fails_on_pipe_in_path :
    loadLedger (saveLedger [(('a' :: '|' :: 'b' :: []), ['h'], ['e'])]) =
      [(['a'], ['b'], ['h'])] ∧
    loadLedger (saveLedger [(('a' :: '|' :: 'b' :: []), ['h'], ['e'])]) ≠
      [(('a' :: '|' :: 'b' :: []), ['h'], ['e'])] := by
  exact ⟨rfl, by decide⟩

/-! Claim C10: the per-category handlers always rewrite the ledger and
store the shadowed event id. -/

/-- Claim C10 counterexample: calling process_file_changes with event id
E9 on a file whose ledger record already holds the current hash reports
outcome 100 (no change) and still stores event id E0 - the id parsed
from the last ledger line - NOT the E9 passed as argument. -/
theorem handler_stores_shadowed_event_id :
    (process_file_changes
        (saveLedger [(['f'], ('5' :: '1' :: '2' :: '0' :: '7' :: []), ('E' :: '0' :: []))])
        ['f'] ('E' :: '9' :: []) [7]).code = 100 ∧
    (process_file_changes
        (saveLedger [(['f'], ('5' :: '1' :: '2' :: '0' :: '7' :: []), ('E' :: '0' :: []))])
        ['f'] ('E' :: '9' :: []) [7]).data.lookup ['f'] =
      some (('5' :: '1' :: '2' :: '0' :: '7' :: []), ('E' :: '0' :: [])) ∧
    (('E' :: '0' :: []) : Field) ≠ ('E' :: '9' :: []) := by
  exact ⟨rfl, rfl, by decide⟩

/-- Claim C10 (amended): every invocation of process_file_changes
unconditionally overwrites the record and rewrites the entire ledger -
even when the hash is unchanged and the outcome reported is 100
(no change) - but the event id stored is the one parsed from the last
valid ledger line (the event_id parameter is shadowed by the load loop's
variable); the passed argument survives only when no ledger line parses. -/
theorem handler_always_rewrites_ledger (ledger : List Char) (filename : Field)
    (event_id : Field) (content : List Nat) :
    (process_file_changes ledger filename event_id content).written =
      saveLedger (process_file_changes ledger filename event_id content).data ∧
    (process_file_changes ledger filename event_id content).data.lookup filename =
      some (digestHex (calculate_file_hash content),
        (loadShadow (splitOnChar '\n' ledger) event_id).2) ∧
    (loadShadow [] event_id).2 = event_id := by
  refine ⟨rfl, ?_, rfl⟩
  exact lookup_dictInsert_self

/-- Concrete instantiation of the amended C8 theorem. -/
theorem check_file_type_suffix_case_sensitive_witness :
    check_file_type ('a' :: 'x' :: '.' :: 'p' :: 'd' :: 'f' :: []) =
      check_file_type ('b' :: 'x' :: '.' :: 'p' :: 'd' :: 'f' :: []) ∧
    check_file_type (('d' :: []) ++ ('.' :: 'x' :: 'l' :: 's' :: 'x' :: [])) = some FileType.excel ∧
    check_file_type (('d' :: []) ++ ('.' :: 'X' :: 'L' :: 'S' :: 'X' :: [])) = none :=
  ⟨check_file_type_suffix_case_sensitive.1 _ _ (by decide),
   check_file_type_suffix_case_sensitive.2.1 _,
   check_file_type_suffix_case_sensitive.2.2 _⟩

/-! Monitoring-cycle lemmas (claims C2, C3, C4, C9). -/

/-- Every record's stored path field equals its dict key.  This holds for
the baseline as loaded from disk (FIM.py line 521 stores the key itself
under "path") and for every record the loop creates, which makes the
rename branch (line 566) unreachable. -/
def WellKeyed (m : List (Path × BaselineRecord)) : Prop :=
  ∀ kv ∈ m, kv.2.path = kv.1

instance (m : List (Path × BaselineRecord)) : Decidable (WellKeyed m) :=
  inferInstanceAs (Decidable (∀ kv ∈ m, kv.2.path = kv.1))

/-- Whether a logged event mentions the given path. -/
def touches (p : Path) : Ev → Prop
  | .new q => q = p
  | .modified q => q = p
  | .renamed o n => o = p ∨ n = p
  | .deleted q => q = p

instance (p : Path) : (e : Ev) → Decidable (touches p e)
  | .new q => inferInstanceAs (Decidable (q = p))
  | .modified q => inferInstanceAs (Decidable (q = p))
  | .renamed o n => inferInstanceAs (Decidable (o = p ∨ n = p))
  | .deleted q => inferInstanceAs (Decidable (q = p))

theorem WellKeyed_dictInsert {m : List (Path × BaselineRecord)} {k : Path}
    {v : BaselineRecord} (hwk : WellKeyed m) (hv : v.path = k) :
    WellKeyed (dictInsert m k v) := by
  intro kv hkv
  rcases mem_dictInsert hkv with hm | he
  · exact hwk kv hm
  · rw [he]; exact hv

/-- Unfolding of the per-file step for a tracked path (the `some r`
branch of the lookup). -/
theorem stepFile_avail_some {st : MState} {p : Path} {c : List Nat} {r : BaselineRecord}
    (hl : st.map.lookup p = some r) :
    stepFile st p (FStat.avail c) =
      if calculate_file_hash c ≠ r.hash then
        Except.ok { map := dictInsert st.map p ⟨calculate_file_hash c, st.ctr, r.path⟩,
                    ctr := st.ctr + 1,
                    events := st.events ++ [Ev.modified p],
                    writes := st.writes + (if ledgerWriting (check_file_type p) then 1 else 0) }
      else if p ≠ r.path then
        match st.map.lookup r.path with
        | none => Except.error ()
        | some r2 =>
          Except.ok { map := dictInsert (st.map.filter (fun kv => kv.1 ≠ r.path)) p
                        { r2 with path := p },
                      ctr := st.ctr,
                      events := st.events ++ [Ev.renamed r.path p],
                      writes := st.writes }
      else Except.ok st := by
  rw [stepFile, hl]

/-- Characterization of one per-file step that returned normally, under
the key invariant: the map changes only at the processed path, the event
log grows only by a new/modified event for that path, and the write
counter moves only together with a modified event. -/
theorem stepFile_spec {st : MState} {p : Path} {fs : FStat} {st' : MState}
    (hwk : WellKeyed st.map) (h : stepFile st p fs = Except.ok st') :
    WellKeyed st'.map ∧
    (∀ q, q ≠ p → st'.map.lookup q = st.map.lookup q) ∧
    (∃ t, st'.events = st.events ++ t ∧
      ∀ e ∈ t, e = Ev.new p ∨ e = Ev.modified p) ∧
    (st'.writes = st.writes ∨ Ev.modified p ∈ st'.events) := by
  cases fs with
  | locked =>
    rw [stepFile] at h
    cases h
    exact ⟨hwk, fun q _ => rfl, ⟨[], by simp, by simp⟩, Or.inl rfl⟩
  | gone => simp [stepFile] at h
  | avail c =>
    cases hl : st.map.lookup p with
    | none =>
      rw [stepFile, hl] at h
      cases h
      refine ⟨WellKeyed_dictInsert hwk rfl, fun q hq => lookup_dictInsert_ne hq,
        ⟨[Ev.new p], rfl, by simp⟩, Or.inl rfl⟩
    | some r =>
      have hrp : r.path = p := hwk (p, r) (lookup_mem hl)
      rw [stepFile_avail_some hl, hrp] at h
      by_cases hch : calculate_file_hash c = r.hash
      · rw [if_neg (fun hne => hne hch), if_neg (fun hne => hne rfl)] at h
        cases h
        exact ⟨hwk, fun q _ => rfl, ⟨[], by simp, by simp⟩, Or.inl rfl⟩
      · rw [if_pos hch] at h
        cases h
        refine ⟨WellKeyed_dictInsert hwk rfl, fun q hq => lookup_dictInsert_ne hq,
          ⟨[Ev.modified p], rfl, by simp⟩,
          Or.inr (List.mem_append.mpr (Or.inr (List.mem_singleton.mpr rfl)))⟩

/-- A tracked file observed with unchanged content is a complete no-op:
no event, no map update, no write (FIM.py lines 553-574 fall through all
branches). -/
theorem stepFile_unchanged {st : MState} {q : Path} {c : List Nat} {r : BaselineRecord}
    (hl : st.map.lookup q = some r) (hrp : r.path = q)
    (hh : calculate_file_hash c = r.hash) :
    stepFile st q (FStat.avail c) = Except.ok st := by
  rw [stepFile_avail_some hl, hrp, if_neg (fun hne => hne hh), if_neg (fun hne => hne rfl)]

theorem lookup_filter_live {α : Type} {m : List (Field × α)} {live : List Field} {q : Field}
    (h : q ∈ live) :
    (m.filter (fun kv => decide (kv.1 ∈ live))).lookup q = m.lookup q := by
  induction m with
  | nil => rfl
  | cons kv rest ih =>
    obtain ⟨k1, v1⟩ := kv
    by_cases hk : k1 ∈ live
    · rw [List.filter_cons_of_pos (by simp [hk]), List.lookup_cons, List.lookup_cons]
      cases hbeq : (q == k1) <;> simp [hbeq, ih]
    · have hq : (q == k1) = false := beq_eq_false_iff_ne.mpr (fun he => hk (he ▸ h))
      rw [List.filter_cons_of_neg (by simp [hk]), List.lookup_cons, hq]
      exact ih

theorem lookup_filter_dead {α : Type} {m : List (Field × α)} {live : List Field} {q : Field}
    (h : q ∉ live) :
    (m.filter (fun kv => decide (kv.1 ∈ live))).lookup q = none := by
  induction m with
  | nil => rfl
  | cons kv rest ih =>
    obtain ⟨k1, v1⟩ := kv
    by_cases hk : k1 ∈ live
    · have hq : (q == k1) = false := beq_eq_false_iff_ne.mpr (fun he => h (he ▸ hk))
      rw [List.filter_cons_of_pos (by simp [hk]), List.lookup_cons, hq]
      exact ih
    · rw [List.filter_cons_of_neg (by simp [hk])]
      exact ih

/-- Characterization of the per-directory delete check: counters are
untouched, lookups of live paths are preserved, lookups of dead paths
become none, and the appended events are exactly 102 deletions of paths
that os.path.exists rejected. -/
theorem deletePass_spec (live : List Path) (st : MState) :
    (deletePass live st).ctr = st.ctr ∧
    (deletePass live st).writes = st.writes ∧
    (WellKeyed st.map → WellKeyed (deletePass live st).map) := by
  exact ⟨rfl, rfl, fun hwk kv hkv => hwk kv (List.mem_filter.mp hkv).1⟩

theorem deletePass_events (live : List Path) (st : MState) :
    ∃ t, (deletePass live st).events = st.events ++ t ∧
      ∀ e ∈ t, ∃ k, e = Ev.deleted k ∧ k ∉ live := by
  refine ⟨_, rfl, ?_⟩
  intro e he
  obtain ⟨k, hk, he2⟩ := List.mem_map.mp he
  exact ⟨k, he2.symm, by simpa using (List.mem_filter.mp hk).2⟩

theorem deletePass_deleted_mem {live : List Path} {st : MState} {q : Path}
    (hq : q ∉ live) (hmem : st.map.lookup q ≠ none) :
    Ev.deleted q ∈ (deletePass live st).events := by
  have hkeys : q ∈ st.map.map Prod.fst := by
    cases hl : st.map.lookup q with
    | none => exact absurd hl hmem
    | some v => exact mem_keys_of_lookup hl
  refine List.mem_append.mpr (Or.inr ?_)
  exact List.mem_map.mpr ⟨q, List.mem_filter.mpr ⟨hkeys, by simpa using hq⟩, rfl⟩

/-- Frame facts about one step needing no key invariant: the event log is
append-only and the write counter moves only together with a modified
event. -/
theorem stepFile_frame {st : MState} {p : Path} {fs : FStat} {st' : MState}
    (h : stepFile st p fs = Except.ok st') :
    (∀ e ∈ st.events, e ∈ st'.events) ∧
    (st'.writes = st.writes ∨ Ev.modified p ∈ st'.events) := by
  cases fs with
  | locked => rw [stepFile] at h; cases h; exact ⟨fun e he => he, Or.inl rfl⟩
  | gone => simp [stepFile] at h
  | avail c =>
    cases hl : st.map.lookup p with
    | none =>
      rw [stepFile, hl] at h
      cases h
      exact ⟨fun e he => List.mem_append.mpr (Or.inl he), Or.inl rfl⟩
    | some r =>
      rw [stepFile_avail_some hl] at h
      by_cases hch : calculate_file_hash c ≠ r.hash
      · rw [if_pos hch] at h
        cases h
        exact ⟨fun e he => List.mem_append.mpr (Or.inl he),
          Or.inr (List.mem_append.mpr (Or.inr (List.mem_singleton.mpr rfl)))⟩
      · rw [if_neg hch] at h
        by_cases hrn : p ≠ r.path
        · rw [if_pos hrn] at h
          cases hl2 : st.map.lookup r.path with
          | none => rw [hl2] at h; exact Except.noConfusion h
          | some r2 =>
            rw [hl2] at h
            cases h
            exact ⟨fun e he => List.mem_append.mpr (Or.inl he), Or.inl rfl⟩
        · rw [if_neg hrn] at h
          cases h
          exact ⟨fun e he => he, Or.inl rfl⟩

/-- Per-file loop over one directory, with the key invariant: the map is
changed only at the walked paths, events grow only by new/modified events
for walked paths, writes move only together with a modified event. -/
theorem runFiles_spec {files : List (Path × FStat)} :
    ∀ {st st' : MState}, WellKeyed st.map →
    runFiles st files = Except.ok st' →
    WellKeyed st'.map ∧
    (∀ q, (∀ f ∈ files, f.1 ≠ q) → st'.map.lookup q = st.map.lookup q) ∧
    (∃ t, st'.events = st.events ++ t ∧
      ∀ e ∈ t, ∃ pf ∈ files, e = Ev.new pf.1 ∨ e = Ev.modified pf.1) := by
  induction files with
  | nil =>
    intro st st' hwk h
    rw [runFiles] at h
    cases h
    exact ⟨hwk, fun q _ => rfl,
      ⟨[], (List.append_nil _).symm, fun e he => absurd he (List.not_mem_nil e)⟩⟩
  | cons f rest ih =>
    intro st st' hwk h
    cases hs : stepFile st f.1 f.2 with
    | error e =>
      rw [runFiles, hs] at h
      exact Except.noConfusion h
    | ok st1 =>
      rw [runFiles, hs] at h
      replace h : runFiles st1 rest = Except.ok st' := h
      obtain ⟨hwk1, hlook1, ⟨t1, he1, ht1⟩, _⟩ := stepFile_spec hwk hs
      obtain ⟨hwk', hlook', ⟨t2, he2, ht2⟩⟩ := ih hwk1 h
      refine ⟨hwk', ?_, ⟨t1 ++ t2, ?_, ?_⟩⟩
      · intro q hq
        rw [hlook' q (fun g hg => hq g (List.mem_cons_of_mem f hg)),
          hlook1 q (fun he => (hq f (List.mem_cons_self f rest)) he.symm)]
      · rw [he2, he1, List.append_assoc]
      · intro e he
        rcases List.mem_append.mp he with h1 | h2
        · exact ⟨f, List.mem_cons_self f rest, ht1 e h1⟩
        · obtain ⟨pf, hpf, hor⟩ := ht2 e h2
          exact ⟨pf, List.mem_cons_of_mem f hpf, hor⟩

/-- Frame version of the per-file loop, without the key invariant. -/
theorem runFiles_frame {files : List (Path × FStat)} :
    ∀ {st st' : MState},
    runFiles st files = Except.ok st' →
    (∀ e ∈ st.events, e ∈ st'.events) ∧
    (st'.writes = st.writes ∨ ∃ pm, Ev.modified pm ∈ st'.events) := by
  induction files with
  | nil =>
    intro st st' h
    rw [runFiles] at h
    cases h
    exact ⟨fun e he => he, Or.inl rfl⟩
  | cons f rest ih =>
    intro st st' h
    cases hs : stepFile st f.1 f.2 with
    | error e =>
      rw [runFiles, hs] at h
      exact Except.noConfusion h
    | ok st1 =>
      rw [runFiles, hs] at h
      replace h : runFiles st1 rest = Except.ok st' := h
      obtain ⟨hmono1, hw1⟩ := stepFile_frame hs
      obtain ⟨hmono', hw'⟩ := ih h
      refine ⟨fun e he => hmono' e (hmono1 e he), ?_⟩
      rcases hw' with heq | hex
      · rcases hw1 with heq1 | hmem1
        · exact Or.inl (heq.trans heq1)
        · exact Or.inr ⟨f.1, hmono' _ hmem1⟩
      · exact Or.inr hex

/-- A tracked path whose every sighting in the directory carries its
recorded content is untouched by the per-file loop. -/
theorem runFiles_unchanged {q : Path} {r : BaselineRecord} {files : List (Path × FStat)}
    (hfiles : ∀ f ∈ files, f.1 = q →
      ∃ c, f.2 = FStat.avail c ∧ calculate_file_hash c = r.hash) :
    ∀ {st st' : MState}, WellKeyed st.map → st.map.lookup q = some r →
    runFiles st files = Except.ok st' →
    WellKeyed st'.map ∧ st'.map.lookup q = some r ∧
    (∃ t, st'.events = st.events ++ t ∧ ∀ e ∈ t, ¬ touches q e) := by
  induction files with
  | nil =>
    intro st st' hwk hl h
    rw [runFiles] at h
    cases h
    exact ⟨hwk, hl, ⟨[], by simp, by simp⟩⟩
  | cons f rest ih =>
    intro st st' hwk hl h
    have hrest : ∀ f ∈ rest, f.1 = q →
        ∃ c, f.2 = FStat.avail c ∧ calculate_file_hash c = r.hash :=
      fun g hg => hfiles g (List.mem_cons_of_mem f hg)
    cases hs : stepFile st f.1 f.2 with
    | error e =>
      rw [runFiles, hs] at h
      exact Except.noConfusion h
    | ok st1 =>
      rw [runFiles, hs] at h
      replace h : runFiles st1 rest = Except.ok st' := h
      by_cases hf : f.1 = q
      · obtain ⟨c, hc, hh⟩ := hfiles f (List.mem_cons_self f rest) hf
        have hrp : r.path = q := hwk (q, r) (lookup_mem hl)
        have hid : stepFile st f.1 f.2 = Except.ok st := by
          rw [hf, hc]
          exact stepFile_unchanged hl hrp hh
        rw [hid] at hs
        injection hs with hs1
        subst hs1
        exact ih hrest hwk hl h
      · obtain ⟨hwk1, hlook1, ⟨t1, he1, ht1⟩, _⟩ := stepFile_spec hwk hs
        have hl1 : st1.map.lookup q = some r := by
          rw [hlook1 q (fun he => hf he.symm)]
          exact hl
        obtain ⟨hwk', hl', ⟨t2, he2, ht2⟩⟩ := ih hrest hwk1 hl1 h
        refine ⟨hwk', hl', ⟨t1 ++ t2, by rw [he2, he1, List.append_assoc], ?_⟩⟩
        intro e he
        rcases List.mem_append.mp he with h1 | h2
        · rcases ht1 e h1 with rfl | rfl <;> simpa [touches] using hf
        · exact ht2 e h2

/-- Inversion of one directory walk: the file loop succeeded and the
delete check ran on its result. -/
theorem walkDir_ok {live : List Path} {st st' : MState} {files : List (Path × FStat)}
    (h : walkDir live st files = Except.ok st') :
    ∃ st1, runFiles st files = Except.ok st1 ∧ st' = deletePass live st1 := by
  cases hs : runFiles st files with
  | error e =>
    rw [walkDir, hs] at h
    exact Except.noConfusion h
  | ok st1 =>
    rw [walkDir, hs] at h
    replace h : Except.ok (deletePass live st1) = Except.ok st' := h
    injection h with h1
    exact ⟨st1, rfl, h1.symm⟩

/-- The walk over all directories with the key invariant: a tracked path
that exists (q in live) and is never seen with changed content keeps its
record untouched and is never mentioned by an event. -/
theorem runDirs_unchanged {live : List Path} {q : Path} {r : BaselineRecord}
    {dirs : List (List (Path × FStat))} (hlive : q ∈ live)
    (hfiles : ∀ d ∈ dirs, ∀ f ∈ d, f.1 = q →
      ∃ c, f.2 = FStat.avail c ∧ calculate_file_hash c = r.hash) :
    ∀ {st st' : MState}, WellKeyed st.map → st.map.lookup q = some r →
    runDirs live dirs st = Except.ok st' →
    WellKeyed st'.map ∧ st'.map.lookup q = some r ∧
    (∃ t, st'.events = st.events ++ t ∧ ∀ e ∈ t, ¬ touches q e) := by
  induction dirs with
  | nil =>
    intro st st' hwk hl h
    rw [runDirs] at h
    cases h
    exact ⟨hwk, hl, ⟨[], (List.append_nil _).symm, fun e he => absurd he (List.not_mem_nil e)⟩⟩
  | cons d rest ih =>
    intro st st' hwk hl h
    cases hw : walkDir live st d with
    | error e =>
      rw [runDirs, hw] at h
      exact Except.noConfusion h
    | ok st1 =>
      rw [runDirs, hw] at h
      replace h : runDirs live rest st1 = Except.ok st' := h
      obtain ⟨stf, hrf, hdel⟩ := walkDir_ok hw
      obtain ⟨hwkf, hlf, ⟨t1, he1, ht1⟩⟩ :=
        runFiles_unchanged (hfiles d (List.mem_cons_self d rest)) hwk hl hrf
      have hwk1 : WellKeyed st1.map := by
        rw [hdel]; exact (deletePass_spec live stf).2.2 hwkf
      have hl1 : st1.map.lookup q = some r := by
        rw [hdel]
        show (stf.map.filter (fun kv => decide (kv.1 ∈ live))).lookup q = some r
        rw [lookup_filter_live hlive]
        exact hlf
      have hd1 : ∃ t, st1.events = st.events ++ t ∧ ∀ e ∈ t, ¬ touches q e := by
        obtain ⟨t2, he2, ht2⟩ := deletePass_events live stf
        refine ⟨t1 ++ t2, ?_, ?_⟩
        · rw [hdel, he2, he1, List.append_assoc]
        · intro e he
          rcases List.mem_append.mp he with h1 | h2
          · exact ht1 e h1
          · obtain ⟨k, rfl, hk⟩ := ht2 e h2
            intro htq
            exact hk (by rw [htq]; exact hlive)
      obtain ⟨t0, he0, ht0⟩ := hd1
      obtain ⟨hwk', hl', ⟨t3, he3, ht3⟩⟩ := ih (fun g hg => hfiles g (List.mem_cons_of_mem d hg))
        hwk1 hl1 h
      refine ⟨hwk', hl', ⟨t0 ++ t3, by rw [he3, he0, List.append_assoc], ?_⟩⟩
      intro e he
      rcases List.mem_append.mp he with h1 | h2
      · exact ht0 e h1
      · exact ht3 e h2

/-- The walk over all directories of paths that never occur among walked
files: events are append-only and a path absent from the map stays
absent. -/
theorem runDirs_dead_preserved {live : List Path} {p : Path}
    {dirs : List (List (Path × FStat))}
    (hnof : ∀ d ∈ dirs, ∀ f ∈ d, f.1 ≠ p) :
    ∀ {st st' : MState}, WellKeyed st.map →
    runDirs live dirs st = Except.ok st' →
    (∀ e ∈ st.events, e ∈ st'.events) ∧
    (st.map.lookup p = none → st'.map.lookup p = none) := by
  induction dirs with
  | nil =>
    intro st st' _ h
    rw [runDirs] at h
    cases h
    exact ⟨fun e he => he, fun hn => hn⟩
  | cons d rest ih =>
    intro st st' hwk h
    cases hw : walkDir live st d with
    | error e =>
      rw [runDirs, hw] at h
      exact Except.noConfusion h
    | ok st1 =>
      rw [runDirs, hw] at h
      replace h : runDirs live rest st1 = Except.ok st' := h
      obtain ⟨stf, hrf, hdel⟩ := walkDir_ok hw
      obtain ⟨hwkf, hlookf, ⟨t1, he1, _⟩⟩ := runFiles_spec hwk hrf
      have hwk1 : WellKeyed st1.map := by
        rw [hdel]; exact (deletePass_spec live stf).2.2 hwkf
      obtain ⟨hmono', hnone'⟩ := ih (fun g hg => hnof g (List.mem_cons_of_mem d hg)) hwk1 h
      constructor
      · intro e he
        refine hmono' e ?_
        rw [hdel]
        exact List.mem_append.mpr (Or.inl (by rw [he1]; exact List.mem_append.mpr (Or.inl he)))
      · intro hn
        refine hnone' ?_
        rw [hdel]
        have hf : stf.map.lookup p = none := by
          rw [hlookf p (hnof d (List.mem_cons_self d rest))]
          exact hn
        by_cases hlv : p ∈ live
        · show (stf.map.filter (fun kv => decide (kv.1 ∈ live))).lookup p = none
          rw [lookup_filter_live hlv]
          exact hf
        · exact lookup_filter_dead hlv

/-- After the first directory of the walk, a tracked path for which
os.path.exists is false has been removed and its 102 event logged; both
survive the remaining directories. -/
theorem runDirs_deletion {live : List Path} {p : Path}
    {d : List (Path × FStat)} {rest : List (List (Path × FStat))}
    (hnof : ∀ g ∈ d :: rest, ∀ f ∈ g, f.1 ≠ p) (hdead : p ∉ live) :
    ∀ {st st' : MState}, WellKeyed st.map → st.map.lookup p ≠ none →
    runDirs live (d :: rest) st = Except.ok st' →
    Ev.deleted p ∈ st'.events ∧ st'.map.lookup p = none := by
  intro st st' hwk htr h
  cases hw : walkDir live st d with
  | error e =>
    rw [runDirs, hw] at h
    exact Except.noConfusion h
  | ok st1 =>
    rw [runDirs, hw] at h
    replace h : runDirs live rest st1 = Except.ok st' := h
    obtain ⟨stf, hrf, hdel⟩ := walkDir_ok hw
    obtain ⟨hwkf, hlookf, _⟩ := runFiles_spec hwk hrf
    have htrf : stf.map.lookup p ≠ none := by
      rw [hlookf p (hnof d (List.mem_cons_self d rest))]
      exact htr
    have hmem1 : Ev.deleted p ∈ st1.events := by
      rw [hdel]; exact deletePass_deleted_mem hdead htrf
    have hnone1 : st1.map.lookup p = none := by
      rw [hdel]; exact lookup_filter_dead hdead
    have hwk1 : WellKeyed st1.map := by
      rw [hdel]; exact (deletePass_spec live stf).2.2 hwkf
    obtain ⟨hmono', hnone'⟩ :=
      runDirs_dead_preserved (fun g hg => hnof g (List.mem_cons_of_mem d hg)) hwk1 h
    exact ⟨hmono' _ hmem1, hnone' hnone1⟩

/-- Frame over all directories: writes move only together with a
modified event surviving into the final log. -/
theorem runDirs_frame {live : List Path} {dirs : List (List (Path × FStat))} :
    ∀ {st st' : MState},
    runDirs live dirs st = Except.ok st' →
    (∀ e ∈ st.events, e ∈ st'.events) ∧
    (st'.writes = st.writes ∨ ∃ pm, Ev.modified pm ∈ st'.events) := by
  induction dirs with
  | nil =>
    intro st st' h
    rw [runDirs] at h
    cases h
    exact ⟨fun e he => he, Or.inl rfl⟩
  | cons d rest ih =>
    intro st st' h
    cases hw : walkDir live st d with
    | error e =>
      rw [runDirs, hw] at h
      exact Except.noConfusion h
    | ok st1 =>
      rw [runDirs, hw] at h
      replace h : runDirs live rest st1 = Except.ok st' := h
      obtain ⟨stf, hrf, hdel⟩ := walkDir_ok hw
      obtain ⟨hmonoF, hwF⟩ := runFiles_frame hrf
      have hmono1 : ∀ e ∈ st.events, e ∈ st1.events := by
        intro e he
        rw [hdel]
        exact List.mem_append.mpr (Or.inl (hmonoF e he))
      have hw1 : st1.writes = st.writes ∨ ∃ pm, Ev.modified pm ∈ st1.events := by
        rcases hwF with heq | ⟨pm, hpm⟩
        · left; rw [hdel]; exact heq
        · right
          exact ⟨pm, by rw [hdel]; exact List.mem_append.mpr (Or.inl hpm)⟩
      obtain ⟨hmono', hw'⟩ := ih h
      refine ⟨fun e he => hmono' e (hmono1 e he), ?_⟩
      rcases hw' with heq | hex
      · rcases hw1 with heq1 | ⟨pm, hpm⟩
        · exact Or.inl (heq.trans heq1)
        · exact Or.inr ⟨pm, hmono' _ hpm⟩
      · exact Or.inr hex

/-- The final state of the two-directory cycle used for claim C2: one
tracked path x whose file is gone from disk, and two live files a
(directory 1) and b (directory 2) that are new to the baseline. -/
def c2res : MState :=
  { map := [(['a'], ⟨Digest.sha512 [1], 1, ['a']⟩),
            (['b'], ⟨Digest.sha512 [2], 2, ['b']⟩)],
    ctr := 3,
    events := [Ev.new ['a'], Ev.deleted ['x'], Ev.new ['b']],
    writes := 0 }

/-- Claim C2 counterexample: the delete check runs after EVERY walked
directory, not once after the whole discovery pass, so the 102 event for
the vanished path x is logged between directory 1's and directory 2's
discovery events: the cycle's event log is new a, deleted x, new b - a
new event is emitted AFTER a deleted event of the same cycle. -/
theorem monitor_deleted_event_before_new_event :
    monitor_files_cycle [[(['a'], FStat.avail [1])], [(['b'], FStat.avail [2])]]
      [['a'], ['b']] [(['x'], ⟨Digest.sha512 [0], 0, ['x']⟩)] 1 = Except.ok c2res ∧
    c2res.events = [Ev.new ['a'], Ev.deleted ['x'], Ev.new ['b']] := ⟨rfl, rfl⟩

/-- Claim C2 (amended): within one cycle the delete check runs after each
walked directory, and its criterion is os.path.exists, not "not visited":
a tracked path that fails the exists check and is never walked has its
102 event logged and its record removed by the end of the cycle (already
after the first directory), but those deleted events interleave with the
discovery events of later directories. -/
theorem monitor_deletion_pass_criterion
    (dirs : List (List (Path × FStat))) (live : List Path)
    (base : List (Path × BaselineRecord)) (ctr0 : Nat) (p : Path) (st' : MState)
    (hwk : WellKeyed base)
    (hnof : ∀ d ∈ dirs, ∀ f ∈ d, f.1 ≠ p)
    (hdead : p ∉ live)
    (htrack : base.lookup p ≠ none)
    (hne : dirs ≠ [])
    (hok : monitor_files_cycle dirs live base ctr0 = Except.ok st') :
    Ev.deleted p ∈ st'.events ∧ st'.map.lookup p = none := by
  cases dirs with
  | nil => exact absurd rfl hne
  | cons d rest => exact runDirs_deletion hnof hdead hwk htrack hok

/-- Concrete instantiation of the amended C2 theorem on the two-directory
cycle. -/
theorem monitor_deletion_pass_criterion_witness :
    Ev.deleted ['x'] ∈ c2res.events ∧ c2res.map.lookup ['x'] = none :=
  monitor_deletion_pass_criterion
    [[(['a'], FStat.avail [1])], [(['b'], FStat.avail [2])]] [['a'], ['b']]
    [(['x'], ⟨Digest.sha512 [0], 0, ['x']⟩)] 1 ['x'] c2res
    (by decide) (by decide) (by decide) (by decide) (by decide) rfl

/-- Claim C3: a file present with identical byte content in consecutive
scans produces no event of any kind and keeps its full record (hash and
event id) in the in-memory baseline map. -/
theorem monitor_unchanged_file_no_event
    (dirs : List (List (Path × FStat))) (live : List Path)
    (base : List (Path × BaselineRecord)) (ctr0 : Nat) (q : Path) (r : BaselineRecord)
    (st' : MState)
    (hwk : WellKeyed base)
    (hl : base.lookup q = some r)
    (hlive : q ∈ live)
    (hfiles : ∀ d ∈ dirs, ∀ f ∈ d, f.1 = q →
      ∃ c, f.2 = FStat.avail c ∧ calculate_file_hash c = r.hash)
    (hok : monitor_files_cycle dirs live base ctr0 = Except.ok st') :
    st'.map.lookup q = some r ∧ ∀ e ∈ st'.events, ¬ touches q e := by
  obtain ⟨_, hl', ⟨t, he, ht⟩⟩ := runDirs_unchanged hlive hfiles hwk hl hok
  refine ⟨hl', ?_⟩
  intro e he2
  rw [he] at he2
  exact ht e (by simpa using he2)

/-- The final state of the single-unchanged-file cycle used for claim C3. -/
def c3res : MState :=
  { map := [(['a'], ⟨Digest.sha512 [1], 0, ['a']⟩)], ctr := 1, events := [], writes := 0 }

/-- Concrete instantiation of the C3 theorem: a tracked file re-observed
with its recorded content leaves the cycle silent. -/
theorem monitor_unchanged_file_no_event_witness :
    c3res.map.lookup ['a'] = some ⟨Digest.sha512 [1], 0, ['a']⟩ ∧
    ∀ e ∈ c3res.events, ¬ touches ['a'] e :=
  monitor_unchanged_file_no_event
    [[(['a'], FStat.avail [1])]] [['a']] [(['a'], ⟨Digest.sha512 [1], 0, ['a']⟩)] 1
    ['a'] ⟨Digest.sha512 [1], 0, ['a']⟩ c3res
    (by decide) rfl (by decide)
    (by
      intro d hd f hf _
      cases List.mem_singleton.mp hd
      cases List.mem_singleton.mp hf
      exact ⟨[1], rfl, rfl⟩)
    rfl

/-- The final state of the single-new-file cycle used for claim C4. -/
def c4res : MState :=
  { map := [(['a'], ⟨Digest.sha512 [1], 0, ['a']⟩)], ctr := 1,
    events := [Ev.new ['a']], writes := 0 }

/-- Claim C4 counterexample: a cycle that detects a new file changes the
in-memory baseline map (from empty to one record) yet performs ZERO
ledger writes - the loop body contains no save of the map at the end of
a cycle (the only baseline.txt writes anywhere in the loop come from the
per-category handlers invoked on modified files). -/
theorem monitor_cycle_changes_map_without_save :
    monitor_files_cycle [[(['a'], FStat.avail [1])]] [['a']] [] 0 = Except.ok c4res ∧
    c4res.map ≠ [] ∧ c4res.writes = 0 := ⟨rfl, by decide, rfl⟩

/-- Claim C4 (amended): the monitoring loop never persists its in-memory
map; the ledger file is written during a cycle only via the per-category
handlers that a modified event triggers, so any cycle whose event log
contains no modified event performs zero ledger writes. -/
theorem monitor_cycle_no_modified_no_write
    (dirs : List (List (Path × FStat))) (live : List Path)
    (base : List (Path × BaselineRecord)) (ctr0 : Nat) (st' : MState)
    (hok : monitor_files_cycle dirs live base ctr0 = Except.ok st')
    (hnomod : ∀ pm, Ev.modified pm ∉ st'.events) :
    st'.writes = 0 := by
  obtain ⟨_, hw⟩ := runDirs_frame hok
  rcases hw with heq | ⟨pm, hpm⟩
  · exact heq
  · exact absurd hpm (hnomod pm)

/-- Concrete instantiation of the amended C4 theorem. -/
theorem monitor_cycle_no_modified_no_write_witness : c4res.writes = 0 :=
  monitor_cycle_no_modified_no_write [[(['a'], FStat.avail [1])]] [['a']] [] 0 c4res rfl
    (by intro pm hpm; simp [c4res] at hpm)

/-- Claim C9 counterexample: a file that disappears between the walk and
the open/hash (FileNotFoundError) is caught by nothing in monitor_files;
the exception propagates out of the while-True loop and the cycle - and
with it the monitoring loop - terminates instead of skipping the file. -/
theorem monitor_cycle_dies_on_vanished_file :
    monitor_files_cycle [[(['a'], FStat.gone)]] [['a']]
      [(['a'], ⟨Digest.sha512 [1], 0, ['a']⟩)] 1 = Except.error () := rfl

/-- Claim C9 (amended): only PermissionError is caught: a locked file is
skipped for the cycle with no event, no state change and no write, and
the loop continues normally; but a file raising any other error (e.g.
vanished before hashing) terminates the loop. -/
theorem monitor_locked_skipped_gone_fatal (p : Path) (base : List (Path × BaselineRecord))
    (live : List Path) (ctr0 : Nat)
    (hlive : ∀ k ∈ base.map Prod.fst, k ∈ live) :
    monitor_files_cycle [[(p, FStat.locked)]] live base ctr0 =
      Except.ok { map := base, ctr := ctr0, events := [], writes := 0 } ∧
    monitor_files_cycle [[(p, FStat.gone)]] live base ctr0 = Except.error () := by
  constructor
  · have h1 : base.filter (fun kv => decide (kv.1 ∈ live)) = base := by
      rw [List.filter_eq_self]
      intro kv hkv
      simpa using hlive kv.1 (List.mem_map.mpr ⟨kv, hkv, rfl⟩)
    have h2 : (base.map Prod.fst).filter (fun k => decide (k ∉ live)) = [] := by
      rw [List.filter_eq_nil_iff]
      intro k hk
      simpa using hlive k hk
    have hcalc : monitor_files_cycle [[(p, FStat.locked)]] live base ctr0 =
        Except.ok (deletePass live { map := base, ctr := ctr0, events := [], writes := 0 }) :=
      rfl
    have hdel : deletePass live { map := base, ctr := ctr0, events := [], writes := 0 } =
        { map := base, ctr := ctr0, events := [], writes := 0 } := by
      show ({ map := base.filter (fun kv => decide (kv.1 ∈ live)), ctr := ctr0,
              events := ([] : List Ev) ++
                ((base.map Prod.fst).filter (fun k => decide (k ∉ live))).map Ev.deleted,
              writes := 0 } : MState) =
            { map := base, ctr := ctr0, events := [], writes := 0 }
      rw [h1, h2]
      rfl
    rw [hcalc, hdel]
  · rfl

/-- Concrete instantiation of the amended C9 theorem. -/
theorem monitor_locked_skipped_gone_fatal_witness :
    monitor_files_cycle [[(['b'], FStat.locked)]] [['a']]
      [(['a'], ⟨Digest.sha512 [1], 0, ['a']⟩)] 1 =
      Except.ok { map := [(['a'], ⟨Digest.sha512 [1], 0, ['a']⟩)], ctr := 1, events := [],
                  writes := 0 } ∧
    monitor_files_cycle [[(['b'], FStat.gone)]] [['a']]
      [(['a'], ⟨Digest.sha512 [1], 0, ['a']⟩)] 1 = Except.error () :=
  monitor_locked_skipped_gone_fatal ['b'] [(['a'], ⟨Digest.sha512 [1], 0, ['a']⟩)] [['a']] 1
    (by decide)

end FIM
